import Mathlib

/-!
# Availability core of `mcp-context-engine` — shallow embedding

This file embeds the availability reasoning core of the repository
(`src/app/core/availability.py`, with the structured outputs of
`src/app/core/timeparse.py` as inputs) and settles the frozen claims
about it.

## Modelling conventions

* Zoned timestamps are modelled as `Int` wall-clock **minutes** on a single
  time line in the configured zone (all datetimes in the code are converted
  to the one configured zone before any comparison, so a single line
  suffices; the zone offset is treated as constant).  `timedelta(days=1)`
  is `1440`; `dt.replace(hour=0, minute=0, second=0, microsecond=0)` is
  `floorDay`; `dt.replace(hour=h, minute=m, ...)` is `floorDay dt + (60*h + m)`.
* `datetime.isoformat()` is injective on timestamps of one zone, so conflict
  and slot records carry the timestamps themselves instead of ISO strings;
  the `HH:MM` slice `iso[11:16]` used in explanations is rendered by `fmtHM`.
  The constant `"source": "calendar"` and `"reason": "earliest free segment"`
  fields of the emitted dictionaries are omitted as constants.
* An input event carries the result of `_parse_iso` on its `start`/`end`
  strings as `Option Int`; `none` models a string on which
  `datetime.fromisoformat` raises (the event is then dropped, matching the
  `try/except` in the normalisation loops).
* The edge policy read from the global `settings.AVAILABILITY_EDGE_POLICY`
  is threaded as an explicit `EdgePolicy` parameter; the work-hours strings
  `WORK_HOURS_START`/`WORK_HOURS_END` of the configuration are carried
  already split into minutes after midnight.
* `decide_availability` and `suggest_slots` both parse the query string;
  the embedding instead receives the two parse results
  (`parse_query_to_windows` as `windows : List (Int × Int)` and
  `parse_slot_intent` as `Option SlotIntent`): both functions parse the
  same query with the same clock, so the same values feed both.
* CPython semantics that matter are modelled faithfully: `sorted` is a
  stable sort by key (insertion sort below inserts strictly before the
  first greater key, which is stable), and `_merge_overlaps` mutates the
  `BusyBlock` objects it absorbs into.  Because `_expand_all_day` in
  `decide_availability` reuses (aliases) the non-all-day block objects,
  that in-place mutation is visible to the later conflict-detection loop;
  the tagged merge below (`mergeRecT`, `blocksMutated`) reproduces this
  aliasing exactly.
-/

/-- The two values of `settings.AVAILABILITY_EDGE_POLICY`; any value other
than `"inclusive"` behaves as `"exclusive_end"` in `_overlap`, and the
setting is a fixed string, so two constructors cover the code. -/
inductive EdgePolicy where
  | exclusive_end
  | inclusive
deriving DecidableEq, Repr

/-- `BusyBlock` of `availability.py` (dataclass with title, start, end, all_day). -/
structure BusyBlock where
  title : String
  start : Int
  «end» : Int
  all_day : Bool
deriving DecidableEq, Repr

/-- An input event after `_parse_iso`: `none` in `start`/`end` models a
timestamp string whose parse raises (the event is skipped). -/
structure Event where
  title : String
  start : Option Int
  «end» : Option Int
  all_day : Bool
deriving DecidableEq, Repr

/-- One entry of the `conflicts` list shaped in `decide_availability`
(title, start/end isoformat — carried as the timestamps — and all_day;
the constant `"source": "calendar"` field is omitted). -/
structure Conflict where
  title : String
  start : Int
  «end» : Int
  all_day : Bool
deriving DecidableEq, Repr

/-- One entry of a `suggested_slots` list (start/end isoformat, carried as
timestamps; the constant `"reason"` field is omitted). -/
structure Slot where
  start : Int
  «end» : Int
deriving DecidableEq, Repr

/-- The configuration snapshot: `WORK_HOURS_START`/`WORK_HOURS_END`
("HH:MM" strings in the code) already split into minutes after midnight
by `_work_window_for`'s `map(int, ….split(":"))`. -/
structure Cfg where
  work_hours_start : Int
  work_hours_end : Int
deriving DecidableEq, Repr

/-- Result of `parse_slot_intent`: the `{"mode": "after_time", ...}` and
`{"mode": "day_window", ...}` dictionaries. -/
inductive SlotIntent where
  | after_time (after : Int) (duration_min : Int)
  | day_window (start : Int) («end» : Int) (duration_min : Int)
deriving DecidableEq, Repr

/-- `AvailabilityResult` of `availability.py`. -/
structure AvailabilityResult where
  availability : String
  conflicts : List Conflict
  explanation : String
  suggested_slots : List Slot
deriving DecidableEq, Repr

/-- `dt.replace(hour=0, minute=0, second=0, microsecond=0)`: midnight of
the civil day of `t`, on the minutes time line. -/
def floorDay (t : Int) : Int := 1440 * (t.fdiv 1440)

/-- `_overlap` of `availability.py`: interval overlap under the edge policy. -/
def overlap (policy : EdgePolicy) (a_start a_end b_start b_end : Int) : Bool :=
  match policy with
  | .inclusive => decide (a_start ≤ b_end) && decide (b_start ≤ a_end)
  | .exclusive_end => decide (a_start < b_end) && decide (b_start < a_end)

/-- The sort key `lambda b: (b.start, b.end)` as a strict lexicographic
comparison between blocks. -/
def bkeyLt (u v : BusyBlock) : Bool :=
  decide (u.start < v.start) || (decide (u.start = v.start) && decide (u.«end» < v.«end»))

/-- Stable insertion of `x` into `l`: `x` goes strictly before the first
element with greater key, hence after all equal keys — the placement
CPython's stable `sorted` gives an element arriving after them. -/
def insertByKey (lt : α → α → Bool) (x : α) : List α → List α
  | [] => [x]
  | y :: ys => if lt y x then y :: insertByKey lt x ys else x :: y :: ys

/-- Stable sort by a strict key comparison (models `sorted(…, key=…)`). -/
def sortByKey (lt : α → α → Bool) : List α → List α
  | [] => []
  | x :: xs => insertByKey lt x (sortByKey lt xs)

/-- The absorption test of `_merge_overlaps`:
`_overlap(last.start, last.end, b.start, b.end) or last.end == b.start`. -/
def absorbs (policy : EdgePolicy) (last b : BusyBlock) : Bool :=
  overlap policy last.start last.«end» b.start b.«end» || decide (last.«end» = b.start)

/-- `if b.end > last.end: last.end = b.end` — extend the run leader. -/
def extendBlock (last b : BusyBlock) : BusyBlock :=
  if last.«end» < b.«end» then { last with «end» := b.«end» } else last

/-- The merge loop of `_merge_overlaps` after sorting, written as direct
recursion: `last` is `merged[-1]`; an absorbed block extends it in place,
a separate block is emitted and becomes the new last. -/
def mergeRec (policy : EdgePolicy) : BusyBlock → List BusyBlock → List BusyBlock
  | last, [] => [last]
  | last, b :: bs =>
    if absorbs policy last b then mergeRec policy (extendBlock last b) bs
    else last :: mergeRec policy b bs

/-- `_merge_overlaps` of `availability.py` (functional output; the in-place
mutation it performs on aliased inputs is modelled separately by
`mergeRecT`/`blocksMutated` for the one call site where it is visible). -/
def merge_overlaps (policy : EdgePolicy) (blocks : List BusyBlock) : List BusyBlock :=
  match sortByKey bkeyLt blocks with
  | [] => []
  | x :: xs => mergeRec policy x xs

/-- All-day expansion (`_expand_all_day` in `decide_availability`, and the
identical inline loop in `suggest_slots`): an all-day block is replaced by
the civil-day span `[midnight, midnight + 24h)` of its start. -/
def expand_all_day (b : BusyBlock) : BusyBlock :=
  if b.all_day then
    { title := b.title, start := floorDay b.start, «end» := floorDay b.start + 1440,
      all_day := true }
  else b

/-- The normalisation loop shared by `decide_availability` and
`suggest_slots`: parse each event's timestamps, dropping events whose
parse raises. -/
def normalize_events (events : List Event) : List BusyBlock :=
  events.filterMap fun ev =>
    match ev.start, ev.«end» with
    | some s, some e => some ⟨ev.title, s, e, ev.all_day⟩
    | _, _ => none

/-- `_expand_all_day(blocks)` in `decide_availability`, with provenance
tags: a non-all-day entry **aliases** the caller's block (tag `some i`,
its index in `blocks`), an all-day entry is a fresh object (tag `none`).
The tag tracks which caller-visible object a later in-place `last.end = …`
assignment mutates. -/
def taggedExpand (blocks : List BusyBlock) : List (Option Nat × BusyBlock) :=
  blocks.enum.map fun p =>
    if p.2.all_day then (none, expand_all_day p.2) else (some p.1, p.2)

/-- The merge loop of `_merge_overlaps` on tagged blocks: each element of
`merged` keeps the tag of the object it aliases, and absorbing updates the
leader's `end` — the assignment `last.end = b.end` on that object. -/
def mergeRecT (policy : EdgePolicy) :
    (Option Nat × BusyBlock) → List (Option Nat × BusyBlock) → List (Option Nat × BusyBlock)
  | last, [] => [last]
  | last, b :: bs =>
    if absorbs policy last.2 b.2 then mergeRecT policy (last.1, extendBlock last.2 b.2) bs
    else last :: mergeRecT policy b bs

/-- `_merge_overlaps(_expand_all_day(blocks))` at line 250 of
`availability.py`, tags preserved. -/
def mergedTagged (policy : EdgePolicy) (events : List Event) :
    List (Option Nat × BusyBlock) :=
  match sortByKey (fun u v => bkeyLt u.2 v.2) (taggedExpand (normalize_events events)) with
  | [] => []
  | x :: xs => mergeRecT policy x xs

/-- `blocks_for_slots` of `decide_availability` (merged, all-day-expanded). -/
def blocks_for_slots (policy : EdgePolicy) (events : List Event) : List BusyBlock :=
  (mergedTagged policy events).map (·.2)

/-- The caller's `blocks` list **after** `_merge_overlaps(_expand_all_day(blocks))`
has run: a non-all-day block that became the leader of a merged run had its
`end` reassigned in place through the alias; every other block is untouched.
This is the list the conflict-detection loop of `decide_availability`
actually iterates over. -/
def blocksMutated (policy : EdgePolicy) (events : List Event) : List BusyBlock :=
  (normalize_events events).enum.map fun p =>
    match (mergedTagged policy events).find? (fun e => e.1 == some p.1) with
    | some e => { p.2 with «end» := e.2.«end» }
    | none => p.2

/-- `_work_window_for(day, cfg)`: the `[WORK_HOURS_START, WORK_HOURS_END]`
pair on the civil day of `day`. -/
def work_window_for (day : Int) (cfg : Cfg) : Int × Int :=
  (floorDay day + cfg.work_hours_start, floorDay day + cfg.work_hours_end)

/-- The per-block conflict test of `decide_availability` (lines 264–281):
all-day blocks are tested on their civil-day span; point windows use
`start ≤ w_start < end` (policy-independent), range windows use `_overlap`. -/
def conflict_test (policy : EdgePolicy) (point_mode : Bool) (w_start w_end : Int)
    (b : BusyBlock) : Bool :=
  if b.all_day then
    let day_start := floorDay b.start
    let day_end := day_start + 1440
    if point_mode then decide (day_start ≤ w_start) && decide (w_start < day_end)
    else overlap policy w_start w_end day_start day_end
  else
    if point_mode then decide (b.start ≤ w_start) && decide (w_start < b.«end»)
    else overlap policy w_start w_end b.start b.«end»

/-- The tail append of `_suggest_slots_in_window` (lines 135–140): after the
loop, a final free segment `[cursor, win_end)` long enough for the duration
yields one more suggestion. -/
def tailSlot (win_end duration_min cursor : Int) (suggestions : List Slot) : List Slot :=
  if cursor < win_end ∧ duration_min ≤ win_end - cursor then
    suggestions ++ [⟨cursor, cursor + duration_min⟩]
  else suggestions

/-- The block loop of `_suggest_slots_in_window`.  Per iteration: skip
blocks fully outside the window; emit `[cursor, cursor + duration)` when the
free segment up to the block start fits, returning immediately (no tail)
once `max_suggestions` is reached; advance the cursor past the block and
`break` (fall through to the tail test, which then necessarily fails) when
it reaches `win_end`. -/
def suggestLoop (win_start win_end duration_min : Int) (max_suggestions : Nat) :
    List BusyBlock → Int → List Slot → List Slot
  | [], cursor, suggestions => tailSlot win_end duration_min cursor suggestions
  | b :: bs, cursor, suggestions =>
    if b.«end» ≤ win_start ∨ win_end ≤ b.start then
      -- block fully outside the window: continue
      suggestLoop win_start win_end duration_min max_suggestions bs cursor suggestions
    else if cursor < b.start ∧ duration_min ≤ min b.start win_end - cursor then
      -- the free segment [cursor, min(b.start, win_end)) fits: append a slot;
      -- `return suggestions` (skipping the tail append) once the cap is reached
      if max_suggestions ≤ (suggestions ++ [Slot.mk cursor (cursor + duration_min)]).length then
        suggestions ++ [Slot.mk cursor (cursor + duration_min)]
      else if win_end ≤ max cursor b.«end» then
        -- `break`: fall through to the tail test (which then necessarily fails)
        tailSlot win_end duration_min (max cursor b.«end»)
          (suggestions ++ [Slot.mk cursor (cursor + duration_min)])
      else
        suggestLoop win_start win_end duration_min max_suggestions bs (max cursor b.«end»)
          (suggestions ++ [Slot.mk cursor (cursor + duration_min)])
    else if win_end ≤ max cursor b.«end» then
      -- no emission (cursor inside/past the block, or segment too short); `break`
      tailSlot win_end duration_min (max cursor b.«end») suggestions
    else suggestLoop win_start win_end duration_min max_suggestions bs (max cursor b.«end») suggestions

/-- `_suggest_slots_in_window(blocks, win_start, win_end, duration_min,
max_suggestions)`: earliest free slots within `[win_start, win_end)`. -/
def suggest_slots_in_window (blocks : List BusyBlock) (win_start win_end duration_min : Int)
    (max_suggestions : Nat) : List Slot :=
  suggestLoop win_start win_end duration_min max_suggestions blocks win_start []

/-- `suggest_slots(query_text, events, cfg, max_suggestions)` with the
parsed slot intent passed in place of the query text.  Events are
normalised and merged afresh (no aliasing escapes this function), the
intent modes pick the window, and the day-window mode returns `[]` when
the working-hours clamp empties the window. -/
def suggest_slots (policy : EdgePolicy) (cfg : Cfg) (intent : Option SlotIntent)
    (events : List Event) (max_suggestions : Nat) : List Slot :=
  match intent with
  | none => []
  | some i =>
    let blocks := merge_overlaps policy ((normalize_events events).map expand_all_day)
    match i with
    | .after_time after dur =>
      let dayWin := work_window_for after cfg
      suggest_slots_in_window blocks (max after dayWin.1) dayWin.2 dur max_suggestions
    | .day_window s e dur =>
      let ww := work_window_for s cfg
      let win_start := max s ww.1
      let win_end := min e ww.2
      if win_end ≤ win_start then []
      else suggest_slots_in_window blocks win_start win_end dur max_suggestions

/-- Two-digit rendering of an hour or minute field, as in `isoformat`. -/
def pad2 (n : Int) : String := if n < 10 then "0" ++ toString n else toString n

/-- The `HH:MM` slice `isoformat()[11:16]` of a timestamp on the minutes line. -/
def fmtHM (t : Int) : String :=
  pad2 ((t.emod 1440) / 60) ++ ":" ++ pad2 ((t.emod 1440).emod 60)

/-- Shape one conflicting block into a `conflicts` entry. -/
def mkConflict (b : BusyBlock) : Conflict := ⟨b.title, b.start, b.«end», b.all_day⟩

/-- Read a conflict entry back as the block data the conflict test saw
(the shaping preserves all four fields). -/
def blockOf (c : Conflict) : BusyBlock := ⟨c.title, c.start, c.«end», c.all_day⟩

/-- `f"Conflicts with {title} at {start[11:16]}."` on the first entry. -/
def explainPoint : List Conflict → String
  | c :: _ => "Conflicts with " ++ c.title ++ " at " ++ fmtHM c.start ++ "."
  | [] => ""

/-- `f"Conflicts with {title} {start[11:16]}–{end[11:16]}."` on the first entry. -/
def explainRange : List Conflict → String
  | c :: _ => "Conflicts with " ++ c.title ++ " " ++ fmtHM c.start ++ "–" ++ fmtHM c.«end» ++ "."
  | [] => ""

/-- `decide_availability(query_text, events, cfg)` with the two parse
results of the query (`parse_query_to_windows` and `parse_slot_intent`)
passed in place of the query text.  Faithful to lines 204–345 of
`availability.py`, including the in-place mutation of aliased blocks by
the merge at line 250 (`blocksMutated`). -/
def decide_availability (policy : EdgePolicy) (cfg : Cfg) (windows : List (Int × Int))
    (intent : Option SlotIntent) (events : List Event) : AvailabilityResult :=
  match windows with
  | [] =>
    -- no window parsed: pure slot-intent path
    let suggestions := suggest_slots policy cfg intent events 2
    if suggestions.isEmpty then
      ⟨"unknown", [], "Could not resolve a specific time window.", []⟩
    else ⟨"unknown", [], "Suggested slots available.", suggestions⟩
  | (w_start, w_end) :: _ =>
    let point_mode := decide (w_start = w_end)
    let conflicting :=
      (blocksMutated policy events).filter (conflict_test policy point_mode w_start w_end)
    if conflicting.isEmpty then
      -- no conflicts → free; probe the slot intent for a day-window duration
      match intent with
      | some (.day_window _ _ dur) =>
        let suggestions_if_free :=
          suggest_slots_in_window (blocks_for_slots policy events) w_start w_end dur 2
        if suggestions_if_free.isEmpty then
          ⟨"free", [], "No conflicts in the requested window.", []⟩
        else ⟨"free", [], "Window is free; suggested earliest slots.", suggestions_if_free⟩
      | _ => ⟨"free", [], "No conflicts in the requested window.", []⟩
    else
      let conflicts_out := (sortByKey bkeyLt conflicting).map mkConflict
      if point_mode then ⟨"busy", conflicts_out, explainPoint conflicts_out, []⟩
      else
        let requested_dur :=
          match intent with
          | some (.day_window _ _ d) => d
          | _ => 30
        ⟨"busy", conflicts_out, explainRange conflicts_out,
          suggest_slots_in_window (blocks_for_slots policy events) w_start w_end requested_dur 2⟩

/-! ## Sorting lemmas -/

/-- Membership is preserved by `insertByKey`. -/
theorem mem_insertByKey (lt : α → α → Bool) (x : α) (l : List α) (a : α) :
    a ∈ insertByKey lt x l ↔ a = x ∨ a ∈ l := by
  induction l with
  | nil => simp [insertByKey]
  | cons y ys ih =>
    by_cases h : lt y x = true
    · simp only [insertByKey, if_pos h, List.mem_cons, ih]
      tauto
    · simp only [insertByKey, if_neg h, List.mem_cons]

/-- Membership is preserved by `sortByKey`. -/
theorem mem_sortByKey (lt : α → α → Bool) (l : List α) (a : α) :
    a ∈ sortByKey lt l ↔ a ∈ l := by
  induction l with
  | nil => simp [sortByKey]
  | cons y ys ih => simp [sortByKey, mem_insertByKey, ih]

/-- `insertByKey` adds one element. -/
theorem length_insertByKey (lt : α → α → Bool) (x : α) (l : List α) :
    (insertByKey lt x l).length = l.length + 1 := by
  induction l with
  | nil => rfl
  | cons y ys ih =>
    by_cases h : lt y x = true
    · simp [insertByKey, if_pos h, ih]
    · simp [insertByKey, if_neg h]

/-- `sortByKey` preserves length. -/
theorem length_sortByKey (lt : α → α → Bool) (l : List α) :
    (sortByKey lt l).length = l.length := by
  induction l with
  | nil => rfl
  | cons y ys ih => simp [sortByKey, length_insertByKey, ih]

/-- Inserting into a list pairwise-related by `R` keeps it so, provided `R`
is transitive and refines the comparison in both directions. -/
theorem pairwise_insertByKey {R : α → α → Prop} (lt : α → α → Bool)
    (hlt : ∀ a b, lt a b = true → R a b) (hnlt : ∀ a b, lt a b = false → R b a)
    (htrans : ∀ {a b c}, R a b → R b c → R a c)
    (x : α) (l : List α) (h : l.Pairwise R) : (insertByKey lt x l).Pairwise R := by
  induction l with
  | nil => simp [insertByKey]
  | cons y ys ih =>
    rcases List.pairwise_cons.mp h with ⟨hy, hys⟩
    by_cases hc : lt y x = true
    · rw [insertByKey, if_pos hc]
      refine List.pairwise_cons.mpr ⟨?_, ih hys⟩
      intro a ha
      rcases (mem_insertByKey lt x ys a).mp ha with rfl | ha
      · exact hlt _ _ hc
      · exact hy a ha
    · rw [insertByKey, if_neg hc]
      refine List.pairwise_cons.mpr ⟨?_, h⟩
      intro a ha
      rcases List.mem_cons.mp ha with rfl | ha
      · exact hnlt _ _ (Bool.not_eq_true _ ▸ hc)
      · exact htrans (hnlt _ _ (Bool.not_eq_true _ ▸ hc)) (hy a ha)

/-- The insertion sort is pairwise-sorted for any reflexive-free relation
`R` compatible with the comparison. -/
theorem pairwise_sortByKey {R : α → α → Prop} (lt : α → α → Bool)
    (hlt : ∀ a b, lt a b = true → R a b) (hnlt : ∀ a b, lt a b = false → R b a)
    (htrans : ∀ {a b c}, R a b → R b c → R a c)
    (l : List α) : (sortByKey lt l).Pairwise R := by
  induction l with
  | nil => simp [sortByKey]
  | cons y ys ih => exact pairwise_insertByKey lt hlt hnlt htrans y _ ih

/-- Sorting an already-sorted list is the identity. -/
theorem sortByKey_eq_self (lt : α → α → Bool) (l : List α)
    (h : l.Pairwise (fun a b => lt b a = false)) : sortByKey lt l = l := by
  induction l with
  | nil => rfl
  | cons y ys ih =>
    rcases List.pairwise_cons.mp h with ⟨hy, hys⟩
    rw [sortByKey, ih hys]
    cases ys with
    | nil => rfl
    | cons z zs => rw [insertByKey, if_neg (by simp [hy z (List.mem_cons_self z zs)])]

/-! ## Merge-pass lemmas (claims C9 and C10) -/

/-- The non-strict form of the sort key order `(start, end)`. -/
def bkeyLe (u v : BusyBlock) : Prop :=
  u.start < v.start ∨ (u.start = v.start ∧ u.«end» ≤ v.«end»)

/-- Separation of two blocks: the first ends strictly before the second starts. -/
def sepB (u v : BusyBlock) : Prop := u.«end» < v.start

theorem bkeyLt_iff (u v : BusyBlock) :
    bkeyLt u v = true ↔ (u.start < v.start ∨ (u.start = v.start ∧ u.«end» < v.«end»)) := by
  simp [bkeyLt]

theorem bkeyLe_of_bkeyLt (u v : BusyBlock) (h : bkeyLt u v = true) : bkeyLe u v := by
  rcases (bkeyLt_iff u v).mp h with h | ⟨h1, h2⟩
  · exact Or.inl h
  · exact Or.inr ⟨h1, le_of_lt h2⟩

theorem bkeyLe_of_not_bkeyLt (u v : BusyBlock) (h : bkeyLt u v = false) : bkeyLe v u := by
  have h' := (bkeyLt_iff u v).not.mp (by simp [h])
  unfold bkeyLe
  omega

theorem bkeyLe_trans {u v w : BusyBlock} (h1 : bkeyLe u v) (h2 : bkeyLe v w) : bkeyLe u w := by
  unfold bkeyLe at *
  omega

theorem bkeyLt_eq_false_of_sep {u v : BusyBlock} (h : u.«end» < v.start)
    (hu : u.start ≤ u.«end») : bkeyLt v u = false := by
  rw [Bool.eq_false_iff]
  intro hc
  have := (bkeyLt_iff v u).mp hc
  omega

/-- `extendBlock` keeps the title, start and all-day flag and takes the
larger end. -/
theorem extendBlock_start (last b : BusyBlock) : (extendBlock last b).start = last.start := by
  unfold extendBlock
  split <;> rfl

theorem extendBlock_end (last b : BusyBlock) :
    (extendBlock last b).«end» = max last.«end» b.«end» := by
  unfold extendBlock
  split <;> simp <;> omega

/-- From a failed absorption test between well-formed, key-ordered blocks,
the blocks are strictly separated. -/
theorem sep_of_not_absorbs (policy : EdgePolicy) {last b : BusyBlock}
    (h : absorbs policy last b = false)
    (h1 : last.start ≤ last.«end») (h2 : b.start ≤ b.«end») (h3 : bkeyLe last b) :
    last.«end» < b.start := by
  rw [absorbs, Bool.or_eq_false_iff] at h
  obtain ⟨hov, hne⟩ := h
  have hne' : ¬ last.«end» = b.start := by simpa using hne
  cases policy with
  | exclusive_end =>
    rw [overlap, Bool.and_eq_false_iff] at hov
    rcases hov with hov | hov <;> simp only [decide_eq_false_iff_not, not_lt] at hov <;>
      unfold bkeyLe at h3 <;> omega
  | inclusive =>
    rw [overlap, Bool.and_eq_false_iff] at hov
    rcases hov with hov | hov <;> simp only [decide_eq_false_iff_not, not_le] at hov <;>
      unfold bkeyLe at h3 <;> omega

/-- Main invariant of the merge loop: from well-formed (`start ≤ end`)
key-sorted input, the output blocks are strictly separated, well-formed,
and all start at or after the leader's start. -/
theorem mergeRec_spec (policy : EdgePolicy) :
    ∀ (bs : List BusyBlock) (last : BusyBlock),
      last.start ≤ last.«end» → (∀ b ∈ bs, b.start ≤ b.«end») →
      (∀ b ∈ bs, bkeyLe last b) → bs.Pairwise bkeyLe →
      (mergeRec policy last bs).Pairwise sepB ∧
      ∀ u ∈ mergeRec policy last bs, last.start ≤ u.start ∧ u.start ≤ u.«end» := by
  intro bs
  induction bs with
  | nil =>
    intro last h1 _ _ _
    refine ⟨List.pairwise_singleton .., ?_⟩
    intro u hu
    rw [mergeRec, List.mem_singleton] at hu
    subst hu
    exact ⟨le_refl _, h1⟩
  | cons b bs ih =>
    intro last h1 h2 h3 h4
    have hb2 : b.start ≤ b.«end» := h2 b (List.mem_cons_self b bs)
    have hb3 : bkeyLe last b := h3 b (List.mem_cons_self b bs)
    rcases List.pairwise_cons.mp h4 with ⟨hbb, h4'⟩
    by_cases hab : absorbs policy last b = true
    · -- absorbed: the leader is extended in place
      rw [mergeRec, if_pos hab]
      have hstart : (extendBlock last b).start = last.start := extendBlock_start last b
      have hend : (extendBlock last b).«end» = max last.«end» b.«end» := extendBlock_end last b
      have h1' : (extendBlock last b).start ≤ (extendBlock last b).«end» := by
        rw [hstart, hend]; omega
      have h3' : ∀ x ∈ bs, bkeyLe (extendBlock last b) x := by
        intro x hx
        have hlx := h3 x (List.mem_cons_of_mem b hx)
        have hbx := hbb x hx
        unfold bkeyLe at *
        rw [hstart, hend]
        omega
      have := ih (extendBlock last b) h1' (fun x hx => h2 x (List.mem_cons_of_mem b hx)) h3' h4'
      exact ⟨this.1, fun u hu => by
        have := this.2 u hu
        rw [hstart] at this
        exact this⟩
    · -- separate: the leader is emitted, `b` becomes the new leader
      rw [mergeRec, if_neg hab]
      have hsep : last.«end» < b.start :=
        sep_of_not_absorbs policy (Bool.not_eq_true _ ▸ hab) h1 hb2 hb3
      have := ih b hb2 (fun x hx => h2 x (List.mem_cons_of_mem b hx)) hbb h4'
      constructor
      · refine List.pairwise_cons.mpr ⟨?_, this.1⟩
        intro u hu
        have hu' := this.2 u hu
        unfold sepB
        omega
      · intro u hu
        rcases List.mem_cons.mp hu with rfl | hu
        · exact ⟨le_refl _, h1⟩
        · have := this.2 u hu
          constructor <;> omega

/-- `merge_overlaps` of a well-formed block list is strictly separated and
well-formed. -/
theorem merge_overlaps_spec (policy : EdgePolicy) (blocks : List BusyBlock)
    (hwf : ∀ b ∈ blocks, b.start ≤ b.«end») :
    (merge_overlaps policy blocks).Pairwise sepB ∧
    ∀ u ∈ merge_overlaps policy blocks, u.start ≤ u.«end» := by
  have hpair : (sortByKey bkeyLt blocks).Pairwise bkeyLe :=
    pairwise_sortByKey bkeyLt bkeyLe_of_bkeyLt (fun a b h => bkeyLe_of_not_bkeyLt a b h)
      (fun h1 h2 => bkeyLe_trans h1 h2) blocks
  have hmem : ∀ b ∈ sortByKey bkeyLt blocks, b.start ≤ b.«end» := by
    intro b hb
    exact hwf b ((mem_sortByKey bkeyLt blocks b).mp hb)
  cases hs : sortByKey bkeyLt blocks with
  | nil => simp [merge_overlaps, hs]
  | cons x xs =>
    rw [hs] at hpair hmem
    rcases List.pairwise_cons.mp hpair with ⟨hx, hxs⟩
    have := mergeRec_spec policy xs x (hmem x (List.mem_cons_self x xs))
      (fun b hb => hmem b (List.mem_cons_of_mem x hb)) hx hxs
    rw [merge_overlaps, hs]
    exact ⟨this.1, fun u hu => (this.2 u hu).2⟩

/-- A strictly separated list passes the merge loop unchanged. -/
theorem mergeRec_of_sep (policy : EdgePolicy) :
    ∀ (bs : List BusyBlock) (last : BusyBlock),
      List.Chain sepB last bs → mergeRec policy last bs = last :: bs := by
  intro bs
  induction bs with
  | nil => intro last _; rfl
  | cons b bs ih =>
    intro last hchain
    rcases List.chain_cons.mp hchain with ⟨hsep, hchain'⟩
    have hsep' : last.«end» < b.start := hsep
    have habs : absorbs policy last b = false := by
      rw [absorbs, Bool.or_eq_false_iff]
      constructor
      · cases policy <;> rw [overlap, Bool.and_eq_false_iff] <;>
          [right; right] <;> simp <;> omega
      · simp
        omega
    rw [mergeRec, if_neg (by simp [habs]), ih b hchain']

/-- C9: for every list of busy blocks (well-formed per the data model:
`start ≤ end`), the merge pass returns blocks pairwise sorted by start and
pairwise disjoint (each earlier block ends at or before each later one
starts).  The absorption rule itself — overlap under the configured policy
or exact abutment, extending the previous end to the maximum of the two
ends — is the definition of `absorbs`/`extendBlock`/`mergeRec`. -/
theorem c9_merge_pass_disjoint_sorted (policy : EdgePolicy) (blocks : List BusyBlock)
    (hwf : ∀ b ∈ blocks, b.start ≤ b.«end») :
    (merge_overlaps policy blocks).Pairwise
      (fun u v => u.start ≤ v.start ∧ u.«end» ≤ v.start) := by
  obtain ⟨hsep, hwf'⟩ := merge_overlaps_spec policy blocks hwf
  exact List.Pairwise.imp_of_mem
    (fun ha _ h => ⟨le_trans (hwf' _ ha) (le_of_lt h), le_of_lt h⟩) hsep

/-- C9 witness: the guarantee at a concrete block list. -/
theorem c9_merge_pass_disjoint_sorted_witness :
    (∀ b ∈ [BusyBlock.mk "a" 0 10 false, BusyBlock.mk "b" 5 12 false,
            BusyBlock.mk "c" 12 20 false, BusyBlock.mk "d" 40 50 false],
        b.start ≤ b.«end») ∧
    (merge_overlaps .exclusive_end
        [BusyBlock.mk "a" 0 10 false, BusyBlock.mk "b" 5 12 false,
         BusyBlock.mk "c" 12 20 false, BusyBlock.mk "d" 40 50 false]).Pairwise
      (fun u v => u.start ≤ v.start ∧ u.«end» ≤ v.start) :=
  ⟨by decide, c9_merge_pass_disjoint_sorted .exclusive_end _ (by decide)⟩

/-- C10: the merge pass is idempotent on every well-formed block list. -/
theorem c10_merge_idempotent (policy : EdgePolicy) (blocks : List BusyBlock)
    (hwf : ∀ b ∈ blocks, b.start ≤ b.«end») :
    merge_overlaps policy (merge_overlaps policy blocks) = merge_overlaps policy blocks := by
  obtain ⟨hsep, hwf'⟩ := merge_overlaps_spec policy blocks hwf
  have hsort : sortByKey bkeyLt (merge_overlaps policy blocks) = merge_overlaps policy blocks :=
    sortByKey_eq_self _ _
      (List.Pairwise.imp_of_mem (fun ha _ h => bkeyLt_eq_false_of_sep h (hwf' _ ha)) hsep)
  cases hM : merge_overlaps policy blocks with
  | nil => rfl
  | cons x xs =>
    rw [hM] at hsep hsort
    have hchain : List.Chain sepB x xs := hsep.chain'
    calc merge_overlaps policy (x :: xs)
        = mergeRec policy x xs := by rw [merge_overlaps, hsort]
      _ = x :: xs := mergeRec_of_sep policy xs x hchain

/-- C10 witness: idempotence at a concrete block list. -/
theorem c10_merge_idempotent_witness :
    (∀ b ∈ [BusyBlock.mk "a" 0 10 false, BusyBlock.mk "b" 5 12 false,
            BusyBlock.mk "c" 12 20 false, BusyBlock.mk "d" 40 50 false],
        b.start ≤ b.«end») ∧
    merge_overlaps .exclusive_end (merge_overlaps .exclusive_end
        [BusyBlock.mk "a" 0 10 false, BusyBlock.mk "b" 5 12 false,
         BusyBlock.mk "c" 12 20 false, BusyBlock.mk "d" 40 50 false]) =
      merge_overlaps .exclusive_end
        [BusyBlock.mk "a" 0 10 false, BusyBlock.mk "b" 5 12 false,
         BusyBlock.mk "c" 12 20 false, BusyBlock.mk "d" 40 50 false] :=
  ⟨by decide, c10_merge_idempotent .exclusive_end _ (by decide)⟩

/-! ## Slot-finder lemmas (claims C4, C5, C8) -/

/-- What claim C4 asserts of a single suggested slot, relative to the
remaining blocks `bs` and the current cursor: exact duration, containment
in the window, emitted at or after the cursor, and no (strict) overlap
with any block. -/
def slotOK (win_start win_end dur : Int) (bs : List BusyBlock) (cursor : Int) (s : Slot) : Prop :=
  s.«end» - s.start = dur ∧ win_start ≤ s.start ∧ s.«end» ≤ win_end ∧ cursor ≤ s.start ∧
  ∀ b ∈ bs, ¬(s.start < b.«end» ∧ b.start < s.«end»)

theorem slotOK_new (win_start win_end dur : Int) (bs : List BusyBlock) (cursor : Int)
    (hc : win_start ≤ cursor) (hfit : cursor + dur ≤ win_end)
    (hbs : ∀ b ∈ bs, b.«end» ≤ win_start ∨ cursor + dur ≤ b.start) :
    slotOK win_start win_end dur bs cursor (Slot.mk cursor (cursor + dur)) := by
  refine ⟨?_, ?_, ?_, ?_, ?_⟩
  · show cursor + dur - cursor = dur
    omega
  · exact hc
  · exact hfit
  · show cursor ≤ cursor
    omega
  · intro b hb
    show ¬(cursor < b.«end» ∧ b.start < cursor + dur)
    rcases hbs b hb with h | h <;> omega

theorem slotOK_cons (win_start win_end dur : Int) {bs : List BusyBlock} {b : BusyBlock}
    {cursor cursor' : Int} {s : Slot} (h : slotOK win_start win_end dur bs cursor' s)
    (hcc : cursor ≤ cursor')
    (hb : b.«end» ≤ cursor' ∨ b.«end» ≤ win_start ∨ win_end ≤ b.start) :
    slotOK win_start win_end dur (b :: bs) cursor s := by
  obtain ⟨e1, e2, e3, e4, e5⟩ := h
  refine ⟨e1, e2, e3, by omega, ?_⟩
  intro b' hb'
  rcases List.mem_cons.mp hb' with rfl | hb'
  · rcases hb with h | h | h <;> omega
  · exact e5 b' hb'

/-- Loop invariant of `_suggest_slots_in_window` (for claim C4): provided
the blocks are sorted by start, every slot in the loop's output either was
already accumulated or satisfies `slotOK`. -/
theorem suggestLoop_spec (win_start win_end dur : Int) (m : Nat) :
    ∀ (bs : List BusyBlock) (cursor : Int) (sugg : List Slot),
      win_start ≤ cursor →
      bs.Pairwise (fun u v => u.start ≤ v.start) →
      ∀ s ∈ suggestLoop win_start win_end dur m bs cursor sugg,
        s ∈ sugg ∨ slotOK win_start win_end dur bs cursor s := by
  intro bs
  induction bs with
  | nil =>
    intro cursor sugg hc _ s hs
    rw [suggestLoop, tailSlot] at hs
    split_ifs at hs with ht
    · rcases List.mem_append.mp hs with hs | hs
      · exact Or.inl hs
      · rw [List.mem_singleton] at hs
        subst hs
        exact Or.inr (slotOK_new _ _ _ _ _ hc (by omega) (by simp))
    · exact Or.inl hs
  | cons b bs ih =>
    intro cursor sugg hc hsorted s hs
    rcases List.pairwise_cons.mp hsorted with ⟨hhead, htail⟩
    rw [suggestLoop] at hs
    by_cases hskip : b.«end» ≤ win_start ∨ win_end ≤ b.start
    · rw [if_pos hskip] at hs
      rcases ih cursor sugg hc htail s hs with h | h
      · exact Or.inl h
      · exact Or.inr (slotOK_cons _ _ _ h (le_refl _) (by tauto))
    · rw [if_neg hskip] at hs
      have hmax1 : cursor ≤ max cursor b.«end» := le_max_left _ _
      have hmax2 : b.«end» ≤ max cursor b.«end» := le_max_right _ _
      have hc' : win_start ≤ max cursor b.«end» := le_trans hc hmax1
      by_cases hemit : cursor < b.start ∧ dur ≤ min b.start win_end - cursor
      · rw [if_pos hemit] at hs
        have hmin1 : min b.start win_end ≤ b.start := min_le_left _ _
        have hmin2 : min b.start win_end ≤ win_end := min_le_right _ _
        have hfitb : cursor + dur ≤ b.start := by omega
        have hfitw : cursor + dur ≤ win_end := by omega
        have hnew : slotOK win_start win_end dur (b :: bs) cursor
            (Slot.mk cursor (cursor + dur)) := by
          refine slotOK_new _ _ _ _ _ hc hfitw ?_
          intro b' hb'
          rcases List.mem_cons.mp hb' with rfl | hb'
          · exact Or.inr hfitb
          · exact Or.inr (le_trans hfitb (hhead b' hb'))
        by_cases hstop : m ≤ (sugg ++ [Slot.mk cursor (cursor + dur)]).length
        · rw [if_pos hstop] at hs
          rcases List.mem_append.mp hs with h | h
          · exact Or.inl h
          · rw [List.mem_singleton] at h
            subst h
            exact Or.inr hnew
        · rw [if_neg hstop] at hs
          by_cases hbreak : win_end ≤ max cursor b.«end»
          · rw [if_pos hbreak, tailSlot, if_neg (by omega)] at hs
            rcases List.mem_append.mp hs with h | h
            · exact Or.inl h
            · rw [List.mem_singleton] at h
              subst h
              exact Or.inr hnew
          · rw [if_neg hbreak] at hs
            rcases ih (max cursor b.«end») _ hc' htail s hs with h | h
            · rcases List.mem_append.mp h with h | h
              · exact Or.inl h
              · rw [List.mem_singleton] at h
                subst h
                exact Or.inr hnew
            · exact Or.inr (slotOK_cons _ _ _ h hmax1 (Or.inl hmax2))
      · rw [if_neg hemit] at hs
        by_cases hbreak : win_end ≤ max cursor b.«end»
        · rw [if_pos hbreak, tailSlot, if_neg (by omega)] at hs
          exact Or.inl hs
        · rw [if_neg hbreak] at hs
          rcases ih (max cursor b.«end») _ hc' htail s hs with h | h
          · exact Or.inl h
          · exact Or.inr (slotOK_cons _ _ _ h hmax1 (Or.inl hmax2))

/-- C4 (amended): for every list of busy blocks **sorted by start** (in
particular every merged list), window, and duration, every suggested slot
has `end - start = duration_min`, lies within `[win_start, win_end)`, and
strictly overlaps no input block (endpoint equality permitted). -/
theorem c4_slots_fit_window_no_overlap (blocks : List BusyBlock)
    (win_start win_end dur : Int) (m : Nat)
    (hsorted : blocks.Pairwise (fun u v => u.start ≤ v.start)) :
    ∀ s ∈ suggest_slots_in_window blocks win_start win_end dur m,
      s.«end» - s.start = dur ∧ win_start ≤ s.start ∧ s.«end» ≤ win_end ∧
      ∀ b ∈ blocks, ¬(s.start < b.«end» ∧ b.start < s.«end») := by
  intro s hs
  rcases suggestLoop_spec win_start win_end dur m blocks win_start [] (le_refl _)
      hsorted s hs with h | h
  · simp at h
  · exact ⟨h.1, h.2.1, h.2.2.1, h.2.2.2.2⟩

/-- C4 counterexample: on an **unsorted** block list the emitted slot
`[0, 30)` strictly overlaps the input block `[10, 20)`. -/
theorem c4_counterexample :
    ∃ s ∈ suggest_slots_in_window
        [BusyBlock.mk "b1" 50 60 false, BusyBlock.mk "b2" 10 20 false] 0 100 30 5,
      ∃ b ∈ [BusyBlock.mk "b1" 50 60 false, BusyBlock.mk "b2" 10 20 false],
        s.start < b.«end» ∧ b.start < s.«end» := by decide

/-- C4 witness: the amended guarantee at a concrete sorted input. -/
theorem c4_slots_fit_window_no_overlap_witness :
    ([BusyBlock.mk "b" 50 60 false].Pairwise (fun u v => u.start ≤ v.start) ∧
      Slot.mk 0 30 ∈ suggest_slots_in_window [BusyBlock.mk "b" 50 60 false] 0 100 30 5) ∧
    ((Slot.mk 0 30).«end» - (Slot.mk 0 30).start = 30 ∧ (0 : Int) ≤ (Slot.mk 0 30).start ∧
      (Slot.mk 0 30).«end» ≤ 100 ∧
      ∀ b ∈ [BusyBlock.mk "b" 50 60 false],
        ¬((Slot.mk 0 30).start < b.«end» ∧ b.start < (Slot.mk 0 30).«end»)) :=
  ⟨⟨by decide, by decide⟩,
    c4_slots_fit_window_no_overlap [BusyBlock.mk "b" 50 60 false] 0 100 30 5 (by decide)
      (Slot.mk 0 30) (by decide)⟩

/-- Length invariant of the loop (for claim C5): while the accumulator is
below the cap, the result stays within the cap. -/
theorem suggestLoop_length (win_start win_end dur : Int) (m : Nat) :
    ∀ (bs : List BusyBlock) (cursor : Int) (sugg : List Slot),
      sugg.length < m →
      (suggestLoop win_start win_end dur m bs cursor sugg).length ≤ m := by
  intro bs
  induction bs with
  | nil =>
    intro cursor sugg hlen
    rw [suggestLoop, tailSlot]
    split_ifs
    · simp
      omega
    · omega
  | cons b bs ih =>
    intro cursor sugg hlen
    rw [suggestLoop]
    by_cases hskip : b.«end» ≤ win_start ∨ win_end ≤ b.start
    · rw [if_pos hskip]
      exact ih cursor sugg hlen
    · rw [if_neg hskip]
      by_cases hemit : cursor < b.start ∧ dur ≤ min b.start win_end - cursor
      · rw [if_pos hemit]
        by_cases hstop : m ≤ (sugg ++ [Slot.mk cursor (cursor + dur)]).length
        · rw [if_pos hstop]
          simp
          omega
        · rw [if_neg hstop]
          have hlen' : (sugg ++ [Slot.mk cursor (cursor + dur)]).length < m := by omega
          by_cases hbreak : win_end ≤ max cursor b.«end»
          · rw [if_pos hbreak, tailSlot, if_neg (by omega)]
            omega
          · rw [if_neg hbreak]
            exact ih _ _ hlen'
      · rw [if_neg hemit]
        by_cases hbreak : win_end ≤ max cursor b.«end»
        · rw [if_pos hbreak, tailSlot, if_neg (by omega)]
          omega
        · rw [if_neg hbreak]
          exact ih _ _ hlen

/-- Ordering invariant of the loop (for claim C5): every accumulated slot
starts strictly before the cursor, and each emission happens at the current
cursor, which strictly advances past well-formed blocks before the next
emission — so the output is strictly ordered by start. -/
theorem suggestLoop_sorted (win_start win_end dur : Int) (m : Nat) :
    ∀ (bs : List BusyBlock) (cursor : Int) (sugg : List Slot),
      (∀ b ∈ bs, b.start ≤ b.«end») →
      (∀ s ∈ sugg, s.start < cursor) →
      sugg.Pairwise (fun s t => s.start < t.start) →
      (suggestLoop win_start win_end dur m bs cursor sugg).Pairwise
        (fun s t => s.start < t.start) := by
  intro bs
  induction bs with
  | nil =>
    intro cursor sugg _ hlt hpair
    rw [suggestLoop, tailSlot]
    split_ifs
    · refine List.pairwise_append.mpr ⟨hpair, List.pairwise_singleton .., ?_⟩
      intro s hs t ht
      rw [List.mem_singleton] at ht
      subst ht
      exact hlt s hs
    · exact hpair
  | cons b bs ih =>
    intro cursor sugg hwf hlt hpair
    have hwfb : b.start ≤ b.«end» := hwf b (List.mem_cons_self b bs)
    have hwf' : ∀ x ∈ bs, x.start ≤ x.«end» := fun x hx => hwf x (List.mem_cons_of_mem b hx)
    rw [suggestLoop]
    by_cases hskip : b.«end» ≤ win_start ∨ win_end ≤ b.start
    · rw [if_pos hskip]
      exact ih cursor sugg hwf' hlt hpair
    · rw [if_neg hskip]
      by_cases hemit : cursor < b.start ∧ dur ≤ min b.start win_end - cursor
      · rw [if_pos hemit]
        have hpair' : (sugg ++ [Slot.mk cursor (cursor + dur)]).Pairwise
            (fun s t => s.start < t.start) := by
          refine List.pairwise_append.mpr ⟨hpair, List.pairwise_singleton .., ?_⟩
          intro s hs t ht
          rw [List.mem_singleton] at ht
          subst ht
          exact hlt s hs
        have hlt' : ∀ s ∈ sugg ++ [Slot.mk cursor (cursor + dur)],
            s.start < max cursor b.«end» := by
          intro s hs
          have hm : b.«end» ≤ max cursor b.«end» := le_max_right _ _
          rcases List.mem_append.mp hs with hs | hs
          · have := hlt s hs
            omega
          · rw [List.mem_singleton] at hs
            subst hs
            show cursor < max cursor b.«end»
            have := hemit.1
            omega
        by_cases hstop : m ≤ (sugg ++ [Slot.mk cursor (cursor + dur)]).length
        · rw [if_pos hstop]
          exact hpair'
        · rw [if_neg hstop]
          by_cases hbreak : win_end ≤ max cursor b.«end»
          · rw [if_pos hbreak, tailSlot, if_neg (by omega)]
            exact hpair'
          · rw [if_neg hbreak]
            exact ih _ _ hwf' hlt' hpair'
      · rw [if_neg hemit]
        have hlt' : ∀ s ∈ sugg, s.start < max cursor b.«end» := by
          intro s hs
          have := hlt s hs
          have hm : cursor ≤ max cursor b.«end» := le_max_left _ _
          omega
        by_cases hbreak : win_end ≤ max cursor b.«end»
        · rw [if_pos hbreak, tailSlot, if_neg (by omega)]
          exact hpair
        · rw [if_neg hbreak]
          exact ih _ _ hwf' hlt' hpair

/-- C5 (amended): for every list of busy blocks (well-formed per the data
model), window and duration, and every cap `max_suggestions ≥ 1` (default
2), the slot finder returns at most `max_suggestions` suggestions, strictly
ordered by increasing start. -/
theorem c5_at_most_max_strictly_ordered (blocks : List BusyBlock)
    (win_start win_end dur : Int) (m : Nat) (hm : 1 ≤ m)
    (hwf : ∀ b ∈ blocks, b.start ≤ b.«end») :
    (suggest_slots_in_window blocks win_start win_end dur m).length ≤ m ∧
    (suggest_slots_in_window blocks win_start win_end dur m).Pairwise
      (fun s t => s.start < t.start) := by
  constructor
  · exact suggestLoop_length win_start win_end dur m blocks win_start [] (by simpa using hm)
  · exact suggestLoop_sorted win_start win_end dur m blocks win_start [] hwf
      (by simp) (List.Pairwise.nil)

/-- C5 counterexample: with `max_suggestions = 0` the tail append still
emits one suggestion, so the bound "at most `max_suggestions`" fails. -/
theorem c5_counterexample :
    (suggest_slots_in_window [] 0 100 30 0).length = 1 ∧
    ¬((suggest_slots_in_window [] 0 100 30 0).length ≤ 0) := by decide

/-- C5 witness: the amended guarantee at a concrete input. -/
theorem c5_at_most_max_strictly_ordered_witness :
    (1 ≤ 2 ∧ ∀ b ∈ [BusyBlock.mk "b" 40 60 false], b.start ≤ b.«end») ∧
    ((suggest_slots_in_window [BusyBlock.mk "b" 40 60 false] 0 200 30 2).length ≤ 2 ∧
      (suggest_slots_in_window [BusyBlock.mk "b" 40 60 false] 0 200 30 2).Pairwise
        (fun s t => s.start < t.start)) :=
  ⟨⟨by decide, by decide⟩,
    c5_at_most_max_strictly_ordered [BusyBlock.mk "b" 40 60 false] 0 200 30 2
      (by decide) (by decide)⟩

/-- Window-containment invariant of the loop (for claim C8): every emitted
slot starts at the cursor (never before `win_start`) and ends within the
window, with no sortedness assumption on the blocks. -/
theorem suggestLoop_within (win_start win_end dur : Int) (m : Nat) :
    ∀ (bs : List BusyBlock) (cursor : Int) (sugg : List Slot),
      win_start ≤ cursor →
      (∀ s ∈ sugg, win_start ≤ s.start ∧ s.«end» ≤ win_end) →
      ∀ s ∈ suggestLoop win_start win_end dur m bs cursor sugg,
        win_start ≤ s.start ∧ s.«end» ≤ win_end := by
  intro bs
  induction bs with
  | nil =>
    intro cursor sugg hc hsugg s hs
    rw [suggestLoop, tailSlot] at hs
    split_ifs at hs with ht
    · rcases List.mem_append.mp hs with hs | hs
      · exact hsugg s hs
      · rw [List.mem_singleton] at hs
        subst hs
        exact ⟨hc, by show cursor + dur ≤ win_end; omega⟩
    · exact hsugg s hs
  | cons b bs ih =>
    intro cursor sugg hc hsugg s hs
    rw [suggestLoop] at hs
    by_cases hskip : b.«end» ≤ win_start ∨ win_end ≤ b.start
    · rw [if_pos hskip] at hs
      exact ih cursor sugg hc hsugg s hs
    · rw [if_neg hskip] at hs
      have hmax1 : cursor ≤ max cursor b.«end» := le_max_left _ _
      have hc' : win_start ≤ max cursor b.«end» := by omega
      by_cases hemit : cursor < b.start ∧ dur ≤ min b.start win_end - cursor
      · rw [if_pos hemit] at hs
        have hmin2 : min b.start win_end ≤ win_end := min_le_right _ _
        have hsugg' : ∀ t ∈ sugg ++ [Slot.mk cursor (cursor + dur)],
            win_start ≤ t.start ∧ t.«end» ≤ win_end := by
          intro t ht
          rcases List.mem_append.mp ht with ht | ht
          · exact hsugg t ht
          · rw [List.mem_singleton] at ht
            subst ht
            have := hemit.2
            exact ⟨hc, by show cursor + dur ≤ win_end; omega⟩
        by_cases hstop : m ≤ (sugg ++ [Slot.mk cursor (cursor + dur)]).length
        · rw [if_pos hstop] at hs
          exact hsugg' s hs
        · rw [if_neg hstop] at hs
          by_cases hbreak : win_end ≤ max cursor b.«end»
          · rw [if_pos hbreak, tailSlot, if_neg (by omega)] at hs
            exact hsugg' s hs
          · rw [if_neg hbreak] at hs
            exact ih _ _ hc' hsugg' s hs
      · rw [if_neg hemit] at hs
        by_cases hbreak : win_end ≤ max cursor b.«end»
        · rw [if_pos hbreak, tailSlot, if_neg (by omega)] at hs
          exact hsugg s hs
        · rw [if_neg hbreak] at hs
          exact ih _ _ hc' hsugg s hs

/-- Every slot of `_suggest_slots_in_window` lies within `[win_start, win_end)`. -/
theorem suggest_slots_in_window_within (blocks : List BusyBlock)
    (win_start win_end dur : Int) (m : Nat) :
    ∀ s ∈ suggest_slots_in_window blocks win_start win_end dur m,
      win_start ≤ s.start ∧ s.«end» ≤ win_end :=
  suggestLoop_within win_start win_end dur m blocks win_start [] (le_refl _) (by simp)

/-- On an empty (or reversed) window the loop emits nothing. -/
theorem suggestLoop_empty_window (win_start win_end dur : Int) (m : Nat)
    (hwin : win_end ≤ win_start) :
    ∀ (bs : List BusyBlock) (cursor : Int) (sugg : List Slot),
      win_start ≤ cursor →
      suggestLoop win_start win_end dur m bs cursor sugg = sugg := by
  intro bs
  induction bs with
  | nil =>
    intro cursor sugg hc
    rw [suggestLoop, tailSlot, if_neg (by omega)]
  | cons b bs ih =>
    intro cursor sugg hc
    rw [suggestLoop]
    by_cases hskip : b.«end» ≤ win_start ∨ win_end ≤ b.start
    · rw [if_pos hskip]
      exact ih cursor sugg hc
    · push_neg at hskip
      rw [if_neg (by omega), if_neg (by omega),
        if_pos (show win_end ≤ max cursor b.«end» by
          have := le_max_left cursor b.«end»
          omega),
        tailSlot, if_neg (by
          have := le_max_left cursor b.«end»
          omega)]

/-- `_suggest_slots_in_window` on an empty window returns no suggestions. -/
theorem suggest_slots_in_window_empty (blocks : List BusyBlock)
    (win_start win_end dur : Int) (m : Nat) (hwin : win_end ≤ win_start) :
    suggest_slots_in_window blocks win_start win_end dur m = [] :=
  suggestLoop_empty_window win_start win_end dur m hwin blocks win_start [] (le_refl _)

/-- C8: in the standalone slot-suggestion path, after-time suggestions lie
within `[max(after, work_start_of_day), work_end_of_day)`, day-window
suggestions within `[max(intent.start, work_start), min(intent.end, work_end))`,
and an empty clamped window yields no suggestions (in either mode). -/
theorem c8_standalone_clamp (policy : EdgePolicy) (cfg : Cfg) (events : List Event) (m : Nat) :
    (∀ (a d : Int), ∀ s ∈ suggest_slots policy cfg (some (.after_time a d)) events m,
        max a (floorDay a + cfg.work_hours_start) ≤ s.start ∧
        s.«end» ≤ floorDay a + cfg.work_hours_end) ∧
    (∀ (a d : Int),
        floorDay a + cfg.work_hours_end ≤ max a (floorDay a + cfg.work_hours_start) →
        suggest_slots policy cfg (some (.after_time a d)) events m = []) ∧
    (∀ (st en d : Int), ∀ s ∈ suggest_slots policy cfg (some (.day_window st en d)) events m,
        max st (floorDay st + cfg.work_hours_start) ≤ s.start ∧
        s.«end» ≤ min en (floorDay st + cfg.work_hours_end)) ∧
    (∀ (st en d : Int),
        min en (floorDay st + cfg.work_hours_end) ≤ max st (floorDay st + cfg.work_hours_start) →
        suggest_slots policy cfg (some (.day_window st en d)) events m = []) := by
  refine ⟨?_, ?_, ?_, ?_⟩
  · intro a d s hs
    simp only [suggest_slots, work_window_for] at hs
    exact suggest_slots_in_window_within _ _ _ _ _ s hs
  · intro a d hclamp
    simp only [suggest_slots, work_window_for]
    exact suggest_slots_in_window_empty _ _ _ _ _ hclamp
  · intro st en d s hs
    simp only [suggest_slots, work_window_for] at hs
    by_cases hclamp : min en (floorDay st + cfg.work_hours_end) ≤
        max st (floorDay st + cfg.work_hours_start)
    · rw [if_pos hclamp] at hs
      simp at hs
    · rw [if_neg hclamp] at hs
      exact suggest_slots_in_window_within _ _ _ _ _ s hs
  · intro st en d hclamp
    simp only [suggest_slots, work_window_for]
    rw [if_pos hclamp]

/-- C8 witness: the day-window guarantee at a concrete input. -/
theorem c8_standalone_clamp_witness :
    Slot.mk 540 570 ∈ suggest_slots .exclusive_end (Cfg.mk 540 1080)
        (some (.day_window 0 1080 30)) [] 2 ∧
    (max 0 (floorDay 0 + (Cfg.mk 540 1080).work_hours_start) ≤ (Slot.mk 540 570).start ∧
      (Slot.mk 540 570).«end» ≤ min 1080 (floorDay 0 + (Cfg.mk 540 1080).work_hours_end)) :=
  ⟨by decide,
    (c8_standalone_clamp .exclusive_end (Cfg.mk 540 1080) [] 2).2.2.1 0 1080 30
      (Slot.mk 540 570) (by decide)⟩

/-! ## Decider branch lemmas (claims C2, C3, C6, C7) -/

/-- With no conflicting block, the decider answers `"free"` (through either
free sub-branch). -/
theorem decide_availability_free_branch (policy : EdgePolicy) (cfg : Cfg)
    (w_start w_end : Int) (rest : List (Int × Int)) (intent : Option SlotIntent)
    (events : List Event)
    (he : (blocksMutated policy events).filter
        (conflict_test policy (decide (w_start = w_end)) w_start w_end) = []) :
    (decide_availability policy cfg ((w_start, w_end) :: rest) intent events).availability
      = "free" := by
  simp only [decide_availability, he, List.isEmpty_nil, if_true]
  split
  · split <;> rfl
  · rfl

/-- With a non-empty conflict list, the decider answers `"busy"` and shapes
the sorted conflicts (in both the point and the range sub-branch). -/
theorem decide_availability_busy_branch (policy : EdgePolicy) (cfg : Cfg)
    (w_start w_end : Int) (rest : List (Int × Int)) (intent : Option SlotIntent)
    (events : List Event)
    (hne : (blocksMutated policy events).filter
        (conflict_test policy (decide (w_start = w_end)) w_start w_end) ≠ []) :
    (decide_availability policy cfg ((w_start, w_end) :: rest) intent events).availability
        = "busy" ∧
    (decide_availability policy cfg ((w_start, w_end) :: rest) intent events).conflicts =
      (sortByKey bkeyLt ((blocksMutated policy events).filter
        (conflict_test policy (decide (w_start = w_end)) w_start w_end))).map mkConflict := by
  have hE : ((blocksMutated policy events).filter
      (conflict_test policy (decide (w_start = w_end)) w_start w_end)).isEmpty = false := by
    cases h : (blocksMutated policy events).filter
        (conflict_test policy (decide (w_start = w_end)) w_start w_end) with
    | nil => exact absurd h hne
    | cons x xs => rfl
  simp only [decide_availability, hE, Bool.false_eq_true, if_false]
  split <;> exact ⟨rfl, rfl⟩

/-- In the point sub-branch the busy result carries no suggestions. -/
theorem decide_availability_busy_point (policy : EdgePolicy) (cfg : Cfg)
    (w : Int) (rest : List (Int × Int)) (intent : Option SlotIntent) (events : List Event)
    (hne : (blocksMutated policy events).filter (conflict_test policy true w w) ≠ []) :
    decide_availability policy cfg ((w, w) :: rest) intent events =
      ⟨"busy",
        (sortByKey bkeyLt ((blocksMutated policy events).filter
          (conflict_test policy true w w))).map mkConflict,
        explainPoint ((sortByKey bkeyLt ((blocksMutated policy events).filter
          (conflict_test policy true w w))).map mkConflict),
        []⟩ := by
  have hE : ((blocksMutated policy events).filter (conflict_test policy true w w)).isEmpty
      = false := by
    cases h : (blocksMutated policy events).filter (conflict_test policy true w w) with
    | nil => exact absurd h hne
    | cons x xs => rfl
  simp only [decide_availability, decide_True, hE, Bool.false_eq_true, if_false, if_true]

/-- C1: at this input the two parsed events are `A = [600, 660)` and
`B = [630, 720)`, yet the busy report for the point query at 700 lists `A`
with end `720`: `_merge_overlaps` (called at line 250 for slot math)
extended the aliased `BusyBlock` of `A` in place to the merged end before
conflict detection ran, so the conflict entry shows a merged span — and
`A` is reported as conflicting at 700 although its parsed span had ended
at 660. -/
theorem c1_conflict_reports_merged_span :
    normalize_events
        [Event.mk "A" (some 600) (some 660) false,
         Event.mk "B" (some 630) (some 720) false] =
      [BusyBlock.mk "A" 600 660 false, BusyBlock.mk "B" 630 720 false] ∧
    (decide_availability .exclusive_end (Cfg.mk 540 1080) [(700, 700)] none
        [Event.mk "A" (some 600) (some 660) false,
         Event.mk "B" (some 630) (some 720) false]).conflicts =
      [Conflict.mk "A" 600 720 false, Conflict.mk "B" 630 720 false] := by decide

/-- C2 counterexample: under the `inclusive` policy a point query at
`T = event.end` is `"free"`, not `"busy"` as claimed — the point-window
conflict test ignores the edge policy. -/
theorem c2_counterexample :
    (decide_availability .inclusive (Cfg.mk 540 1080) [(660, 660)] none
        [Event.mk "E" (some 600) (some 660) false]).availability = "free" ∧
    (decide_availability .inclusive (Cfg.mk 540 1080) [(660, 660)] none
        [Event.mk "E" (some 600) (some 660) false]).availability ≠ "busy" := by decide

/-- C2 (amended): for every non-all-day event `e`, a point query at
`T = e.end` is `"free"` under **both** edge policies: the point-window
conflict test `b.start ≤ T < b.end` does not consult the policy. -/
theorem c2_point_at_event_end_free (policy : EdgePolicy) (cfg : Cfg)
    (intent : Option SlotIntent) (title : String) (s e : Int) :
    (decide_availability policy cfg [(e, e)] intent
        [Event.mk title (some s) (some e) false]).availability = "free" := by
  apply decide_availability_free_branch
  have hmut : blocksMutated policy [Event.mk title (some s) (some e) false]
      = [BusyBlock.mk title s e false] := rfl
  rw [hmut]
  have htest : conflict_test policy true e e (BusyBlock.mk title s e false) = false := by
    simp [conflict_test]
  simp [List.filter, htest]

/-- C3 counterexample: a point query at the start of an event is reported
busy with that event as conflict, but the event does not overlap the
(point) window under the configured `exclusive_end` policy. -/
theorem c3_counterexample :
    (decide_availability .exclusive_end (Cfg.mk 540 1080) [(600, 600)] none
        [Event.mk "E" (some 600) (some 660) false]).availability = "busy" ∧
    (decide_availability .exclusive_end (Cfg.mk 540 1080) [(600, 600)] none
        [Event.mk "E" (some 600) (some 660) false]).conflicts =
      [Conflict.mk "E" 600 660 false] ∧
    overlap .exclusive_end 600 600 600 660 = false := by decide

/-- C3 (amended): whenever the decider answers `"busy"`, the conflict list
is non-empty, and every reported conflict passes the decider's conflict
test against the parsed window: `_overlap` under the configured policy for
range windows, and `start ≤ w_start < end` (on the civil-day span for
all-day entries) for point windows. -/
theorem c3_busy_conflicts_pass_test (policy : EdgePolicy) (cfg : Cfg)
    (w_start w_end : Int) (rest : List (Int × Int)) (intent : Option SlotIntent)
    (events : List Event)
    (hbusy : (decide_availability policy cfg ((w_start, w_end) :: rest) intent
        events).availability = "busy") :
    (decide_availability policy cfg ((w_start, w_end) :: rest) intent events).conflicts ≠ [] ∧
    ∀ c ∈ (decide_availability policy cfg ((w_start, w_end) :: rest) intent events).conflicts,
      conflict_test policy (decide (w_start = w_end)) w_start w_end (blockOf c) = true := by
  by_cases hcase : (blocksMutated policy events).filter
      (conflict_test policy (decide (w_start = w_end)) w_start w_end) = []
  · have hfree := decide_availability_free_branch policy cfg w_start w_end rest intent
      events hcase
    rw [hfree] at hbusy
    exact absurd hbusy (by decide)
  · obtain ⟨_, hconf⟩ := decide_availability_busy_branch policy cfg w_start w_end rest
      intent events hcase
    have hlen := length_sortByKey bkeyLt ((blocksMutated policy events).filter
      (conflict_test policy (decide (w_start = w_end)) w_start w_end))
    constructor
    · rw [hconf]
      intro h0
      have hc := congrArg List.length h0
      rw [List.length_map, hlen] at hc
      exact hcase (List.length_eq_zero.mp hc)
    · intro c hc
      rw [hconf] at hc
      rcases List.mem_map.mp hc with ⟨b, hb, rfl⟩
      have hmem := List.mem_filter.mp ((mem_sortByKey _ _ _).mp hb)
      have hbo : blockOf (mkConflict b) = b := rfl
      rw [hbo]
      exact hmem.2

/-- C3 witness: the amended guarantee at a concrete busy range query. -/
theorem c3_busy_conflicts_pass_test_witness :
    (decide_availability .exclusive_end (Cfg.mk 540 1080) [(620, 640)] none
        [Event.mk "E" (some 600) (some 660) false]).availability = "busy" ∧
    ((decide_availability .exclusive_end (Cfg.mk 540 1080) [(620, 640)] none
        [Event.mk "E" (some 600) (some 660) false]).conflicts ≠ [] ∧
      ∀ c ∈ (decide_availability .exclusive_end (Cfg.mk 540 1080) [(620, 640)] none
          [Event.mk "E" (some 600) (some 660) false]).conflicts,
        conflict_test .exclusive_end (decide ((620 : Int) = 640)) 620 640 (blockOf c) = true) :=
  ⟨by decide,
    c3_busy_conflicts_pass_test .exclusive_end (Cfg.mk 540 1080) 620 640 [] none
      [Event.mk "E" (some 600) (some 660) false] (by decide)⟩

/-- C6 counterexample: a point query covered by two events returns **two**
conflict entries, not "exactly one conflict entry". -/
theorem c6_counterexample :
    (decide_availability .exclusive_end (Cfg.mk 540 1080) [(660, 660)] none
        [Event.mk "A" (some 600) (some 700) false,
         Event.mk "B" (some 650) (some 720) false]).availability = "busy" ∧
    (decide_availability .exclusive_end (Cfg.mk 540 1080) [(660, 660)] none
        [Event.mk "A" (some 600) (some 700) false,
         Event.mk "B" (some 650) (some 720) false]).conflicts.length = 2 := by decide

/-- C6 (amended): for a point window with at least one conflicting event,
the decider returns `"busy"` with one conflict entry **per conflicting
event** (all of them, sorted by `(start, end)`) and an empty
`suggested_slots` list. -/
theorem c6_point_busy_all_conflicts_no_slots (policy : EdgePolicy) (cfg : Cfg)
    (w : Int) (rest : List (Int × Int)) (intent : Option SlotIntent) (events : List Event)
    (hconf : (blocksMutated policy events).filter (conflict_test policy true w w) ≠ []) :
    (decide_availability policy cfg ((w, w) :: rest) intent events).availability = "busy" ∧
    (decide_availability policy cfg ((w, w) :: rest) intent events).suggested_slots = [] ∧
    (decide_availability policy cfg ((w, w) :: rest) intent events).conflicts.length =
      ((blocksMutated policy events).filter (conflict_test policy true w w)).length := by
  rw [decide_availability_busy_point policy cfg w rest intent events hconf]
  refine ⟨rfl, rfl, ?_⟩
  rw [List.length_map, length_sortByKey]

/-- C6 witness: the amended guarantee at the two-event point query. -/
theorem c6_point_busy_all_conflicts_no_slots_witness :
    (blocksMutated .exclusive_end
        [Event.mk "A" (some 600) (some 700) false,
         Event.mk "B" (some 650) (some 720) false]).filter
      (conflict_test .exclusive_end true 660 660) ≠ [] ∧
    ((decide_availability .exclusive_end (Cfg.mk 540 1080) [(660, 660)] none
        [Event.mk "A" (some 600) (some 700) false,
         Event.mk "B" (some 650) (some 720) false]).availability = "busy" ∧
      (decide_availability .exclusive_end (Cfg.mk 540 1080) [(660, 660)] none
        [Event.mk "A" (some 600) (some 700) false,
         Event.mk "B" (some 650) (some 720) false]).suggested_slots = [] ∧
      (decide_availability .exclusive_end (Cfg.mk 540 1080) [(660, 660)] none
        [Event.mk "A" (some 600) (some 700) false,
         Event.mk "B" (some 650) (some 720) false]).conflicts.length =
        ((blocksMutated .exclusive_end
            [Event.mk "A" (some 600) (some 700) false,
             Event.mk "B" (some 650) (some 720) false]).filter
          (conflict_test .exclusive_end true 660 660)).length) :=
  ⟨by decide,
    c6_point_busy_all_conflicts_no_slots .exclusive_end (Cfg.mk 540 1080) 660 [] none
      [Event.mk "A" (some 600) (some 700) false,
       Event.mk "B" (some 650) (some 720) false] (by decide)⟩

/-- C7 counterexample: with no window parsed and a parsed after-time slot
intent whose clamped window is empty (book after 20:00 with work hours
ending 18:00), the decider answers with the "Could not resolve …"
explanation, not "Suggested slots available." as claimed for every parsed
intent. -/
theorem c7_counterexample :
    (decide_availability .exclusive_end (Cfg.mk 540 1080) []
        (some (.after_time 1200 30)) []).explanation
      = "Could not resolve a specific time window." ∧
    (decide_availability .exclusive_end (Cfg.mk 540 1080) []
        (some (.after_time 1200 30)) []).explanation
      ≠ "Suggested slots available." := by decide

/-- C7 (amended): with no parsed window, the decider answers `"unknown"`;
it reports "Suggested slots available." with the produced suggestions
exactly when the slot-intent path yields at least one suggestion, and
"Could not resolve a specific time window." with no suggestions otherwise
(no intent parsed, or an intent whose suggestion list is empty). -/
theorem c7_no_window_explanations (policy : EdgePolicy) (cfg : Cfg)
    (intent : Option SlotIntent) (events : List Event) :
    (suggest_slots policy cfg intent events 2 ≠ [] →
      decide_availability policy cfg [] intent events =
        ⟨"unknown", [], "Suggested slots available.",
          suggest_slots policy cfg intent events 2⟩) ∧
    (suggest_slots policy cfg intent events 2 = [] →
      decide_availability policy cfg [] intent events =
        ⟨"unknown", [], "Could not resolve a specific time window.", []⟩) := by
  constructor
  · intro h
    have hE : (suggest_slots policy cfg intent events 2).isEmpty = false := by
      cases hs : suggest_slots policy cfg intent events 2 with
      | nil => exact absurd hs h
      | cons x xs => rfl
    simp only [decide_availability, hE, Bool.false_eq_true, if_false]
  · intro h
    simp only [decide_availability, h, List.isEmpty_nil, if_true]

/-- C7 witness: both explanation branches at concrete inputs. -/
theorem c7_no_window_explanations_witness :
    suggest_slots .exclusive_end (Cfg.mk 540 1080) (some (.after_time 900 30)) [] 2 ≠ [] ∧
    decide_availability .exclusive_end (Cfg.mk 540 1080) [] (some (.after_time 900 30)) [] =
      ⟨"unknown", [], "Suggested slots available.",
        suggest_slots .exclusive_end (Cfg.mk 540 1080) (some (.after_time 900 30)) [] 2⟩ :=
  ⟨by decide,
    (c7_no_window_explanations .exclusive_end (Cfg.mk 540 1080)
      (some (.after_time 900 30)) []).1 (by decide)⟩
